import Mathlib

/-!
# Verification of the `Bitmap` bit-vector (bradley101/rust-bitmaps)

Shallow embedding of `src/bitmap.rs` (the crate's `Bitmap` struct; `src/lib.rs`
contains an identical copy of the implementation).  The Rust code stores bits
least-significant-bit-first in a `Vec<u8>`; `set`/`unset`/`get` first run
`assert!(bit_index < self.bit_count)` and then index `self.map[bit_index / 8]`.

Modelling choices:
* `u8` bytes are `Nat` values (well-formed states keep them `< 256`);
  `usize` values are `Nat` (the quantities involved never wrap).
* A Rust panic is an `Except` error.  `assert!` failures in `set`/`unset`/`get`
  are `Panic.indexOutOfRange`, the `assert!(bit_count > 0)` failure in `new` is
  `Panic.invalidArgument` (the spec's names for these conditions), and an
  out-of-bounds `Vec` index is `Panic.vecIndexOutOfBounds`.  All functions are
  pure: a call that returns `.error` hands no modified state to the caller, so
  "the structure is left unmodified on failure" is expressed by the result
  being exactly `.error _`.
* `1u8 << (bit_index % 8)` is `1 <<< (bit_index % 8)` (the shift amount is
  `< 8`, so the Rust shift neither truncates nor panics); the `u8` complement
  `!mask` is `mask ^^^ 255`.
-/

namespace RustBitmaps

/-- The distinct panic conditions of the Rust code. -/
inductive Panic where
  | indexOutOfRange
  | invalidArgument
  | vecIndexOutOfBounds
  deriving DecidableEq, Repr

instance {ε α : Type} [DecidableEq ε] [DecidableEq α] :
    DecidableEq (Except ε α) := fun x y =>
  match x, y with
  | .ok a, .ok b =>
      if h : a = b then .isTrue (congrArg Except.ok h)
      else .isFalse (fun hh => h (Except.ok.inj hh))
  | .error e, .error f =>
      if h : e = f then .isTrue (congrArg Except.error h)
      else .isFalse (fun hh => h (Except.error.inj hh))
  | .ok _, .error _ => .isFalse (fun hh => Except.noConfusion hh)
  | .error _, .ok _ => .isFalse (fun hh => Except.noConfusion hh)

/-- Rust's unsigned `usize::div_ceil`: `self / rhs`, rounded up. -/
def divCeil (a b : Nat) : Nat :=
  a / b + if a % b ≠ 0 then 1 else 0

/-- The `Bitmap` struct of `src/bitmap.rs` (fields in source order). -/
structure Bitmap where
  /-- The capacity of the underlying vector in terms of 8-bit chunks. -/
  bitmap_capacity : Nat
  /-- The total number of bits in the bitmap. -/
  bit_count : Nat
  /-- The underlying vector storing the bitmap data (`Vec<u8>`). -/
  map : List Nat
  deriving DecidableEq, Repr

namespace Bitmap

/-- `Bitmap::new`: `assert!(bit_count > 0)`, capacity `bit_count.div_ceil(8)`,
storage `vec![0; bitmap_capacity]`. -/
def new (bit_count : Nat) : Except Panic Bitmap :=
  if bit_count > 0 then
    let bitmap_capacity := divCeil bit_count 8
    .ok { bit_count := bit_count
          bitmap_capacity := bitmap_capacity
          map := List.replicate bitmap_capacity 0 }
  else .error .invalidArgument

/-- `Bitmap::set`: `assert!(bit_index < self.bit_count)`, then
`self.map[bit_index / 8] |= 1 << (bit_index % 8)`. -/
def set (b : Bitmap) (bit_index : Nat) : Except Panic Bitmap :=
  if bit_index < b.bit_count then
    match b.map[bit_index / 8]? with
    | some byte =>
        .ok { b with
              map := b.map.set (bit_index / 8) (byte ||| 1 <<< (bit_index % 8)) }
    | none => .error .vecIndexOutOfBounds
  else .error .indexOutOfRange

/-- `Bitmap::unset`: `assert!(bit_index < self.bit_count)`, then
`self.map[bit_index / 8] &= !(1 << (bit_index % 8))`. -/
def unset (b : Bitmap) (bit_index : Nat) : Except Panic Bitmap :=
  if bit_index < b.bit_count then
    match b.map[bit_index / 8]? with
    | some byte =>
        .ok { b with
              map := b.map.set (bit_index / 8)
                (byte &&& (1 <<< (bit_index % 8) ^^^ 255)) }
    | none => .error .vecIndexOutOfBounds
  else .error .indexOutOfRange

/-- `Bitmap::get`: `assert!(bit_index < self.bit_count)`, then
`self.map[bit_index / 8] & (1 << (bit_index % 8)) == (1 << (bit_index % 8))`. -/
def get (b : Bitmap) (bit_index : Nat) : Except Panic Bool :=
  if bit_index < b.bit_count then
    match b.map[bit_index / 8]? with
    | some byte =>
        .ok (decide
          (byte &&& 1 <<< (bit_index % 8) = 1 <<< (bit_index % 8)))
    | none => .error .vecIndexOutOfBounds
  else .error .indexOutOfRange

/-- `Bitmap::get_bit_count`. -/
def get_bit_count (b : Bitmap) : Nat :=
  b.bit_count

/-- `Bitmap::get_bitmap_capacity`. -/
def get_bitmap_capacity (b : Bitmap) : Nat :=
  b.bitmap_capacity

/-- The byte `self.map[k]` read by the operations (defaulting to `0` out of
bounds; the operations only consult it through `b.map[k]?`). -/
def byteAt (b : Bitmap) (k : Nat) : Nat :=
  b.map.getD k 0

/-- Well-formedness of a `Bitmap` state: positive bit count, the capacity
formula of `new`, storage of exactly that length, and every stored unit an
actual byte value.  Established by `new` and preserved by every operation. -/
def WF (b : Bitmap) : Prop :=
  0 < b.bit_count ∧
  b.bitmap_capacity = divCeil b.bit_count 8 ∧
  b.map.length = b.bitmap_capacity ∧
  ∀ x ∈ b.map, x < 256

instance (b : Bitmap) : Decidable b.WF := by
  unfold WF; infer_instance

end Bitmap

/-! ## Arithmetic helper lemmas -/

lemma divCeil_eq (n : Nat) : divCeil n 8 = (n + 7) / 8 := by
  unfold divCeil
  have h := Nat.div_add_mod n 8
  have h2 : n % 8 < 8 := Nat.mod_lt _ (by norm_num)
  rcases Nat.eq_zero_or_pos (n % 8) with h0 | h0
  · simp only [h0, ne_eq, not_true_eq_false, if_false]
    omega
  · have : (n % 8 ≠ 0) = True := by simp [Nat.pos_iff_ne_zero.mp h0]
    simp only [this, if_true]
    omega

lemma lt_divCeil_mul (i n : Nat) (h : i < n) : i / 8 < divCeil n 8 := by
  rw [divCeil_eq]
  have h1 := Nat.div_add_mod i 8
  have h2 := Nat.div_add_mod (n + 7) 8
  have h3 : i % 8 < 8 := Nat.mod_lt _ (by norm_num)
  have h4 : (n + 7) % 8 < 8 := Nat.mod_lt _ (by norm_num)
  omega

lemma le_mul_divCeil (n : Nat) : n ≤ 8 * divCeil n 8 := by
  rw [divCeil_eq]
  have h2 := Nat.div_add_mod (n + 7) 8
  have h4 : (n + 7) % 8 < 8 := Nat.mod_lt _ (by norm_num)
  omega

lemma mul_divCeil_lt (n : Nat) : 8 * divCeil n 8 < n + 8 := by
  rw [divCeil_eq]
  have h2 := Nat.div_add_mod (n + 7) 8
  omega

/-! ## Bit-arithmetic helper lemmas -/

/-- The `get` comparison `byte & mask == mask` tests exactly bit `s`. -/
lemma and_shift_eq_iff (byte s : Nat) :
    (byte &&& 1 <<< s = 1 <<< s) ↔ byte.testBit s = true := by
  rw [Nat.one_shiftLeft, Nat.and_two_pow]
  cases h : byte.testBit s <;> simp
  exact Nat.pos_iff_ne_zero.mp (Nat.pos_pow_of_pos s (by norm_num)) ∘ Eq.symm

/-- Bits of a byte after `set`'s OR-with-mask. -/
lemma testBit_or_shift (byte s t : Nat) :
    (byte ||| 1 <<< s).testBit t = (byte.testBit t || decide (t = s)) := by
  rw [Nat.testBit_or, Nat.one_shiftLeft]
  rcases eq_or_ne t s with h | h
  · subst h; rw [Nat.testBit_two_pow_self]; simp
  · rw [Nat.testBit_two_pow_of_ne (Ne.symm h)]
    simp [h]

/-- Bits of a byte after `unset`'s AND-with-complement, at positions `< 8`. -/
lemma testBit_and_mask (byte s t : Nat) (hs : s < 8) (ht : t < 8) :
    (byte &&& (1 <<< s ^^^ 255)).testBit t
      = (byte.testBit t && decide (t ≠ s)) := by
  rw [Nat.testBit_and, Nat.testBit_xor, Nat.one_shiftLeft]
  have h255 : (255 : Nat).testBit t = true := by
    have : (255 : Nat) = 2 ^ 8 - 1 := by norm_num
    rw [this, Nat.testBit_two_pow_sub_one]
    simpa using ht
  rw [h255]
  rcases eq_or_ne t s with h | h
  · subst h; rw [Nat.testBit_two_pow_self]; simp
  · rw [Nat.testBit_two_pow_of_ne (Ne.symm h)]
    simp [h]

/-! ## Structural helper lemmas -/

lemma Bitmap.getElem?_eq_byteAt (b : Bitmap) (k : Nat) (h : k < b.map.length) :
    b.map[k]? = some (b.byteAt k) := by
  rw [List.getElem?_eq_getElem h, byteAt, List.getD_eq_getElem b.map 0 h]

lemma Bitmap.byteAt_lt (b : Bitmap) (hwf : b.WF) (k : Nat) : b.byteAt k < 256 := by
  by_cases h : k < b.map.length
  · rw [Bitmap.byteAt, List.getD_eq_getElem b.map 0 h]
    exact hwf.2.2.2 _ (List.getElem_mem h)
  · rw [Bitmap.byteAt, List.getD_eq_getElem?_getD,
      List.getElem?_eq_none (by omega)]
    norm_num

lemma shift_lt_256 (s : Nat) (hs : s < 8) : 1 <<< s < 256 := by
  rw [Nat.one_shiftLeft]
  calc 2 ^ s ≤ 2 ^ 7 := Nat.pow_le_pow_right (by norm_num) (by omega)
    _ < 256 := by norm_num

lemma or_lt_256 (x y : Nat) (hx : x < 256) (hy : y < 256) : x ||| y < 256 := by
  have h256 : (256 : Nat) = 2 ^ 8 := by norm_num
  rw [h256] at hx hy ⊢
  exact Nat.or_lt_two_pow hx hy

lemma Bitmap.wf_div_lt (b : Bitmap) (hwf : b.WF) (i : Nat)
    (hi : i < b.bit_count) : i / 8 < b.map.length := by
  rw [hwf.2.2.1, hwf.2.1]
  exact lt_divCeil_mul i b.bit_count hi

lemma Bitmap.byteAt_update_self (b : Bitmap) (k v : Nat) (hk : k < b.map.length) :
    Bitmap.byteAt { b with map := b.map.set k v } k = v := by
  rw [Bitmap.byteAt, List.getD_eq_getElem?_getD]
  simp [List.getElem?_set_self, hk]

lemma Bitmap.byteAt_update_ne (b : Bitmap) (k v l : Nat) (h : k ≠ l) :
    Bitmap.byteAt { b with map := b.map.set k v } l = b.byteAt l := by
  rw [Bitmap.byteAt, Bitmap.byteAt, List.getD_eq_getElem?_getD,
    List.getD_eq_getElem?_getD]
  rw [show ({ b with map := b.map.set k v } : Bitmap).map = b.map.set k v from rfl,
    List.getElem?_set_ne h]

lemma Bitmap.wf_update (b : Bitmap) (k v : Nat) (hv : v < 256) (hwf : b.WF) :
    Bitmap.WF { b with map := b.map.set k v } := by
  obtain ⟨h1, h2, h3, h4⟩ := hwf
  refine ⟨h1, h2, by simpa using h3, ?_⟩
  intro x hx
  rcases List.mem_or_eq_of_mem_set hx with h | h
  · exact h4 x h
  · subst h; exact hv

lemma mod_ne_of_div_eq {i j : Nat} (hne : j ≠ i) (hdiv : j / 8 = i / 8) :
    j % 8 ≠ i % 8 := by
  intro h
  apply hne
  have h1 := Nat.div_add_mod j 8
  have h2 := Nat.div_add_mod i 8
  omega

/-! ## Characterizations of the operations on well-formed states -/

lemma new_ok_iff (n : Nat) (b : Bitmap) :
    Bitmap.new n = .ok b ↔
      0 < n ∧ b = ⟨divCeil n 8, n, List.replicate (divCeil n 8) 0⟩ := by
  rcases Nat.eq_zero_or_pos n with h | h
  · subst h
    constructor
    · intro h2; exact absurd h2 (by simp [Bitmap.new])
    · rintro ⟨h0, -⟩; exact absurd h0 (by simp)
  · constructor
    · intro h2
      refine ⟨h, ?_⟩
      have h3 : (Except.ok (⟨divCeil n 8, n, List.replicate (divCeil n 8) 0⟩ :
          Bitmap) : Except Panic Bitmap) = .ok b := by
        rw [← h2]; unfold Bitmap.new; rw [if_pos h]
      exact (Except.ok.inj h3).symm
    · rintro ⟨-, rfl⟩
      unfold Bitmap.new; rw [if_pos h]

lemma new_wf (n : Nat) (b : Bitmap) (hb : Bitmap.new n = .ok b) : b.WF := by
  obtain ⟨hn, rfl⟩ := (new_ok_iff n b).mp hb
  refine ⟨hn, rfl, by simp, ?_⟩
  intro x hx
  rw [List.eq_of_mem_replicate hx]
  norm_num

lemma new_byteAt (n : Nat) (b : Bitmap) (hb : Bitmap.new n = .ok b) (k : Nat) :
    b.byteAt k = 0 := by
  obtain ⟨-, rfl⟩ := (new_ok_iff n b).mp hb
  rw [Bitmap.byteAt, List.getD_eq_getElem?_getD, List.getElem?_replicate]
  split <;> rfl

lemma decide_and_shift_eq (byte s : Nat) :
    decide (byte &&& 1 <<< s = 1 <<< s) = byte.testBit s := by
  cases h : byte.testBit s <;> simp [and_shift_eq_iff, h]

lemma Bitmap.get_ok (b : Bitmap) (i : Nat) (hwf : b.WF) (hi : i < b.bit_count) :
    b.get i = .ok ((b.byteAt (i / 8)).testBit (i % 8)) := by
  have hlen := b.wf_div_lt hwf i hi
  simp only [Bitmap.get, hi, if_true, b.getElem?_eq_byteAt _ hlen,
    decide_and_shift_eq]

lemma Bitmap.set_ok (b : Bitmap) (i : Nat) (hwf : b.WF) (hi : i < b.bit_count) :
    b.set i = .ok { b with
      map := b.map.set (i / 8) (b.byteAt (i / 8) ||| 1 <<< (i % 8)) } := by
  have hlen := b.wf_div_lt hwf i hi
  simp only [Bitmap.set, hi, if_true, b.getElem?_eq_byteAt _ hlen]

lemma Bitmap.unset_ok (b : Bitmap) (i : Nat) (hwf : b.WF) (hi : i < b.bit_count) :
    b.unset i = .ok { b with
      map := b.map.set (i / 8)
        (b.byteAt (i / 8) &&& (1 <<< (i % 8) ^^^ 255)) } := by
  have hlen := b.wf_div_lt hwf i hi
  simp only [Bitmap.unset, hi, if_true, b.getElem?_eq_byteAt _ hlen]

lemma Bitmap.set_ok_elim (b b' : Bitmap) (i : Nat) (h : b.set i = .ok b') :
    i < b.bit_count ∧ i / 8 < b.map.length ∧
      b' = { b with
        map := b.map.set (i / 8) (b.byteAt (i / 8) ||| 1 <<< (i % 8)) } := by
  by_cases hi : i < b.bit_count
  · by_cases hk : i / 8 < b.map.length
    · simp only [Bitmap.set, hi, if_true, b.getElem?_eq_byteAt _ hk] at h
      injection h with h
      exact ⟨hi, hk, h.symm⟩
    · exfalso
      simp only [Bitmap.set, hi, if_true,
        List.getElem?_eq_none (Nat.le_of_not_lt hk)] at h
      exact Except.noConfusion h
  · exfalso
    simp only [Bitmap.set] at h
    rw [if_neg hi] at h
    exact Except.noConfusion h

lemma Bitmap.unset_ok_elim (b b' : Bitmap) (i : Nat) (h : b.unset i = .ok b') :
    i < b.bit_count ∧ i / 8 < b.map.length ∧
      b' = { b with
        map := b.map.set (i / 8)
          (b.byteAt (i / 8) &&& (1 <<< (i % 8) ^^^ 255)) } := by
  by_cases hi : i < b.bit_count
  · by_cases hk : i / 8 < b.map.length
    · simp only [Bitmap.unset, hi, if_true, b.getElem?_eq_byteAt _ hk] at h
      injection h with h
      exact ⟨hi, hk, h.symm⟩
    · exfalso
      simp only [Bitmap.unset, hi, if_true,
        List.getElem?_eq_none (Nat.le_of_not_lt hk)] at h
      exact Except.noConfusion h
  · exfalso
    simp only [Bitmap.unset] at h
    rw [if_neg hi] at h
    exact Except.noConfusion h

lemma new_bit_count (n : Nat) (b : Bitmap) (hb : Bitmap.new n = .ok b) :
    b.bit_count = n := by
  obtain ⟨-, rfl⟩ := (new_ok_iff n b).mp hb
  rfl

lemma mask_lt_256 (i : Nat) : 1 <<< (i % 8) < 256 :=
  shift_lt_256 _ (Nat.mod_lt _ (by norm_num))

/-! ## The claims -/

/-- C2: for every `bit_count > 0`, a freshly constructed bitmap
`new(bit_count)` has every bit unset: `get(i)` returns `false` for every
`i < bit_count`. -/
theorem new_all_bits_clear (n i : Nat) (b : Bitmap)
    (hb : Bitmap.new n = .ok b) (hi : i < n) : b.get i = .ok false := by
  have hwf := new_wf n b hb
  have hcount := new_bit_count n b hb
  rw [Bitmap.get_ok b i hwf (by omega), new_byteAt n b hb]
  simp [Nat.zero_testBit]

/-- Witness for C2: on `new 64`, bit 13 reads as `false`. -/
theorem new_all_bits_clear_witness :
    Bitmap.new 64 = .ok (Bitmap.mk 8 64 (List.replicate 8 0)) ∧ 13 < 64 ∧
      (Bitmap.mk 8 64 (List.replicate 8 0)).get 13 = .ok false :=
  ⟨by decide, by decide, new_all_bits_clear 64 13 _ (by decide) (by decide)⟩

/-- C1: after `set(i)` on a freshly constructed (all-clear) bitmap with
`i < bit_count`, `get(i)` returns `true` and `get(j)` returns `false` for
every other in-range index `j ≠ i`. -/
theorem set_get_roundtrip (n i : Nat) (b : Bitmap)
    (hb : Bitmap.new n = .ok b) (hi : i < n) :
    ∃ b', b.set i = .ok b' ∧ b'.get i = .ok true ∧
      ∀ j, j < n → j ≠ i → b'.get j = .ok false := by
  have hwf := new_wf n b hb
  have hcount := new_bit_count n b hb
  have hi' : i < b.bit_count := by omega
  have hlen := b.wf_div_lt hwf i hi'
  have hv : b.byteAt (i / 8) ||| 1 <<< (i % 8) < 256 :=
    or_lt_256 _ _ (b.byteAt_lt hwf _) (mask_lt_256 i)
  have hwf' : Bitmap.WF { b with
      map := b.map.set (i / 8) (b.byteAt (i / 8) ||| 1 <<< (i % 8)) } :=
    b.wf_update _ _ hv hwf
  refine ⟨_, b.set_ok i hwf hi', ?_, ?_⟩
  · rw [Bitmap.get_ok _ i hwf' hi', b.byteAt_update_self _ _ hlen,
      new_byteAt n b hb, testBit_or_shift]
    simp [Nat.zero_testBit]
  · intro j hj hne
    have hj' : j < b.bit_count := by omega
    rw [Bitmap.get_ok _ j hwf' hj']
    by_cases hdiv : j / 8 = i / 8
    · rw [hdiv, b.byteAt_update_self _ _ hlen, new_byteAt n b hb,
        testBit_or_shift]
      have hmod := mod_ne_of_div_eq hne hdiv
      simp [Nat.zero_testBit, hmod]
    · rw [b.byteAt_update_ne _ _ _ (Ne.symm hdiv), new_byteAt n b hb]
      simp [Nat.zero_testBit]

/-- Witness for C1: on `new 64`, `set 10` makes bit 10 read `true` and
bit 9 read `false`. -/
theorem set_get_roundtrip_witness :
    Bitmap.new 64 = .ok (Bitmap.mk 8 64 (List.replicate 8 0)) ∧ 10 < 64 ∧
      (∃ b', (Bitmap.mk 8 64 (List.replicate 8 0)).set 10 = .ok b' ∧
        b'.get 10 = .ok true ∧
        ∀ j, j < 64 → j ≠ 10 → b'.get j = .ok false) :=
  ⟨by decide, by decide, set_get_roundtrip 64 10 _ (by decide) (by decide)⟩

/-- C3: `set`, `unset` and `get` at an index `≥ bit_count` all fail with the
`IndexOutOfRange` condition.  The operations are pure, and on this branch
they return only the error — no modified bitmap exists, so every stored bit,
`bit_count` and the byte capacity of the caller's value are untouched. -/
theorem set_unset_get_out_of_range (b : Bitmap) (i : Nat)
    (hi : b.bit_count ≤ i) :
    b.set i = .error .indexOutOfRange ∧
    b.unset i = .error .indexOutOfRange ∧
    b.get i = .error .indexOutOfRange := by
  have h : ¬ i < b.bit_count := Nat.not_lt.mpr hi
  refine ⟨?_, ?_, ?_⟩
  · simp only [Bitmap.set]; rw [if_neg h]
  · simp only [Bitmap.unset]; rw [if_neg h]
  · simp only [Bitmap.get]; rw [if_neg h]

/-- Witness for C3: the spec's concrete scenario, `bit_count = 64`,
index 64. -/
theorem set_unset_get_out_of_range_witness :
    (Bitmap.mk 8 64 (List.replicate 8 0)).bit_count ≤ 64 ∧
      ((Bitmap.mk 8 64 (List.replicate 8 0)).set 64 =
          .error .indexOutOfRange ∧
        (Bitmap.mk 8 64 (List.replicate 8 0)).unset 64 =
          .error .indexOutOfRange ∧
        (Bitmap.mk 8 64 (List.replicate 8 0)).get 64 =
          .error .indexOutOfRange) :=
  ⟨by decide, set_unset_get_out_of_range _ 64 (by decide)⟩

/-- C5: `new(bit_count)` reports `get_bitmap_capacity() = ceil(bit_count/8)`,
stated both as the closed form `(bit_count + 7) / 8` and by the defining
inequalities of the ceiling. -/
theorem capacity_is_ceil (n : Nat) (b : Bitmap) (hb : Bitmap.new n = .ok b) :
    b.get_bitmap_capacity = (n + 7) / 8 ∧
    n ≤ 8 * b.get_bitmap_capacity ∧ 8 * b.get_bitmap_capacity < n + 8 := by
  obtain ⟨-, rfl⟩ := (new_ok_iff n b).mp hb
  exact ⟨divCeil_eq n, le_mul_divCeil n, mul_divCeil_lt n⟩

/-- Witness for C5: the spec's concrete capacities
`64 → 8`, `100 → 13`, `1 → 1`. -/
theorem capacity_is_ceil_witness :
    (Bitmap.new 100 = .ok (Bitmap.mk 13 100 (List.replicate 13 0)) ∧
      ((Bitmap.mk 13 100 (List.replicate 13 0)).get_bitmap_capacity =
          (100 + 7) / 8 ∧
        100 ≤ 8 * (Bitmap.mk 13 100 (List.replicate 13 0)).get_bitmap_capacity ∧
        8 * (Bitmap.mk 13 100 (List.replicate 13 0)).get_bitmap_capacity <
          100 + 8)) ∧
    (100 + 7) / 8 = 13 ∧ (64 + 7) / 8 = 8 ∧ (1 + 7) / 8 = 1 :=
  ⟨⟨by decide, capacity_is_ceil 100 _ (by decide)⟩, by decide, by decide,
    by decide⟩

/-- C8: `new(0)` fails with the `InvalidArgument` condition and yields no
instance, while `new(bit_count)` succeeds for every `bit_count > 0`. -/
theorem new_zero_rejected :
    Bitmap.new 0 = .error .invalidArgument ∧
      ∀ n, 0 < n → ∃ b, Bitmap.new n = .ok b := by
  refine ⟨rfl, ?_⟩
  intro n hn
  exact ⟨_, (new_ok_iff n _).mpr ⟨hn, rfl⟩⟩

/-- Witness for C8: the universal part instantiated at `bit_count = 5`. -/
theorem new_zero_rejected_witness :
    Bitmap.new 0 = .error .invalidArgument ∧
      (0 < 5 ∧ ∃ b, Bitmap.new 5 = .ok b) :=
  ⟨new_zero_rejected.1, by decide, new_zero_rejected.2 5 (by decide)⟩

/-- C4: LSB-first addressing.  On a well-formed bitmap, for in-range `i`,
`get` reads bit `i % 8` of byte `i / 8`, `set` ORs in the mask
`1 << (i % 8)` at byte `i / 8`, and `unset` ANDs that byte with the mask's
complement. -/
theorem bit_addressing (b : Bitmap) (i : Nat) (hwf : b.WF)
    (hi : i < b.bit_count) :
    b.get i = .ok ((b.byteAt (i / 8)).testBit (i % 8)) ∧
    b.set i = .ok { b with
      map := b.map.set (i / 8) (b.byteAt (i / 8) ||| 1 <<< (i % 8)) } ∧
    b.unset i = .ok { b with
      map := b.map.set (i / 8)
        (b.byteAt (i / 8) &&& (1 <<< (i % 8) ^^^ 255)) } :=
  ⟨b.get_ok i hwf hi, b.set_ok i hwf hi, b.unset_ok i hwf hi⟩

/-- Witness for C4: the spec's byte-boundary scenario — `bit_count = 64`,
`set 8` touches only byte 1, bit 0; afterwards `get 8` is `true` and every
other in-range bit, bit 7 included, is `false`. -/
theorem bit_addressing_witness :
    ((Bitmap.mk 8 64 (List.replicate 8 0)).WF ∧
      8 < (Bitmap.mk 8 64 (List.replicate 8 0)).bit_count) ∧
    ((Bitmap.mk 8 64 (List.replicate 8 0)).get 8 =
        .ok (((Bitmap.mk 8 64 (List.replicate 8 0)).byteAt 1).testBit 0) ∧
      (Bitmap.mk 8 64 (List.replicate 8 0)).set 8 =
        .ok (Bitmap.mk 8 64 ((List.replicate 8 0).set 1 1)) ∧
      (Bitmap.mk 8 64 (List.replicate 8 0)).unset 8 =
        .ok (Bitmap.mk 8 64 ((List.replicate 8 0).set 1 0))) ∧
    ((Bitmap.mk 8 64 ((List.replicate 8 0).set 1 1)).get 8 = .ok true ∧
      (Bitmap.mk 8 64 ((List.replicate 8 0).set 1 1)).get 7 = .ok false ∧
      ∀ j, j < 64 → j ≠ 8 →
        (Bitmap.mk 8 64 ((List.replicate 8 0).set 1 1)).get j = .ok false) :=
  ⟨⟨by decide, by decide⟩,
    bit_addressing (Bitmap.mk 8 64 (List.replicate 8 0)) 8 (by decide)
      (by decide),
    by decide, by decide, by decide⟩

/-- C6: on a well-formed bitmap, `set(i)` followed by `unset(i)` (both
succeeding, `i` in range) leaves `get(i) = false` and every other in-range
bit with the value it held before the pair of calls. -/
theorem unset_reverses_set (b : Bitmap) (i : Nat) (hwf : b.WF)
    (hi : i < b.bit_count) :
    ∃ b1 b2, b.set i = .ok b1 ∧ b1.unset i = .ok b2 ∧
      b2.get i = .ok false ∧
      ∀ j, j < b.bit_count → j ≠ i → b2.get j = b.get j := by
  have hlen := b.wf_div_lt hwf i hi
  have hs : i % 8 < 8 := Nat.mod_lt _ (by norm_num)
  have hv1 : b.byteAt (i / 8) ||| 1 <<< (i % 8) < 256 :=
    or_lt_256 _ _ (b.byteAt_lt hwf _) (mask_lt_256 i)
  set b1 : Bitmap := { b with
    map := b.map.set (i / 8) (b.byteAt (i / 8) ||| 1 <<< (i % 8)) } with hb1def
  have hwf1 : b1.WF := b.wf_update _ _ hv1 hwf
  have hb1k : i / 8 < b1.map.length := by
    rw [hb1def]; simpa using hlen
  have hbyte1 : b1.byteAt (i / 8) = b.byteAt (i / 8) ||| 1 <<< (i % 8) := by
    rw [hb1def]; exact b.byteAt_update_self _ _ hlen
  have hv2 : b1.byteAt (i / 8) &&& (1 <<< (i % 8) ^^^ 255) < 256 :=
    lt_of_le_of_lt Nat.and_le_left (b1.byteAt_lt hwf1 _)
  set b2 : Bitmap := { b1 with
    map := b1.map.set (i / 8)
      (b1.byteAt (i / 8) &&& (1 <<< (i % 8) ^^^ 255)) } with hb2def
  have hwf2 : b2.WF := b1.wf_update _ _ hv2 hwf1
  have hbyte2 : b2.byteAt (i / 8)
      = b1.byteAt (i / 8) &&& (1 <<< (i % 8) ^^^ 255) := by
    rw [hb2def]; exact b1.byteAt_update_self _ _ hb1k
  refine ⟨b1, b2, b.set_ok i hwf hi, b1.unset_ok i hwf1 hi, ?_, ?_⟩
  · rw [Bitmap.get_ok b2 i hwf2 hi, hbyte2, testBit_and_mask _ _ _ hs hs]
    simp
  · intro j hj hne
    have ht : j % 8 < 8 := Nat.mod_lt _ (by norm_num)
    rw [Bitmap.get_ok b2 j hwf2 hj, Bitmap.get_ok b j hwf hj]
    by_cases hdiv : j / 8 = i / 8
    · have hmod := mod_ne_of_div_eq hne hdiv
      rw [hdiv, hbyte2, testBit_and_mask _ _ _ hs ht, hbyte1,
        testBit_or_shift]
      simp [hmod]
    · have hbb : b2.byteAt (j / 8) = b.byteAt (j / 8) := by
        rw [hb2def, Bitmap.byteAt_update_ne _ _ _ _ (Ne.symm hdiv), hb1def,
          Bitmap.byteAt_update_ne _ _ _ _ (Ne.symm hdiv)]
      rw [hbb]

/-- Witness for C6: `new 64`, `set 10` then `unset 10`; bit 10 reads `false`
and all other in-range bits read what the fresh bitmap read. -/
theorem unset_reverses_set_witness :
    (Bitmap.mk 8 64 (List.replicate 8 0)).WF ∧
      10 < (Bitmap.mk 8 64 (List.replicate 8 0)).bit_count ∧
      (∃ b1 b2, (Bitmap.mk 8 64 (List.replicate 8 0)).set 10 = .ok b1 ∧
        b1.unset 10 = .ok b2 ∧ b2.get 10 = .ok false ∧
        ∀ j, j < (Bitmap.mk 8 64 (List.replicate 8 0)).bit_count →
          j ≠ 10 → b2.get j = (Bitmap.mk 8 64 (List.replicate 8 0)).get j) :=
  ⟨by decide, by decide,
    unset_reverses_set (Bitmap.mk 8 64 (List.replicate 8 0)) 10 (by decide)
      (by decide)⟩

/-- C7: `set(i)` twice in succession is the same call-for-call as once, and
likewise `unset(i)` — for every bitmap state and every index, in range or
not (errors propagate through the sequencing unchanged). -/
theorem set_unset_idempotent (b : Bitmap) (i : Nat) :
    (b.set i >>= fun c => Bitmap.set c i) = b.set i ∧
    (b.unset i >>= fun c => Bitmap.unset c i) = b.unset i := by
  constructor
  · by_cases hi : i < b.bit_count
    · rcases h? : b.map[i / 8]? with _ | byte
      · have h1 : b.set i = .error .vecIndexOutOfBounds := by
          simp only [Bitmap.set, hi, if_true, h?]
        rw [h1]; rfl
      · have hk : i / 8 < b.map.length := by
          rw [List.getElem?_eq_some] at h?; exact h?.1
        have h1 : b.set i = .ok { b with
            map := b.map.set (i / 8) (byte ||| 1 <<< (i % 8)) } := by
          simp only [Bitmap.set, hi, if_true, h?]
        rw [h1]
        have h2? : (b.map.set (i / 8) (byte ||| 1 <<< (i % 8)))[i / 8]?
            = some (byte ||| 1 <<< (i % 8)) := by
          simp [List.getElem?_set_self, hk]
        show Bitmap.set _ i = _
        simp only [Bitmap.set, hi, if_true, h2?, List.set_set]
        rw [Nat.or_assoc, Nat.or_self]
    · have h1 : b.set i = .error .indexOutOfRange := by
        simp only [Bitmap.set]; rw [if_neg hi]
      rw [h1]; rfl
  · by_cases hi : i < b.bit_count
    · rcases h? : b.map[i / 8]? with _ | byte
      · have h1 : b.unset i = .error .vecIndexOutOfBounds := by
          simp only [Bitmap.unset, hi, if_true, h?]
        rw [h1]; rfl
      · have hk : i / 8 < b.map.length := by
          rw [List.getElem?_eq_some] at h?; exact h?.1
        have h1 : b.unset i = .ok { b with
            map := b.map.set (i / 8)
              (byte &&& (1 <<< (i % 8) ^^^ 255)) } := by
          simp only [Bitmap.unset, hi, if_true, h?]
        rw [h1]
        have h2? : (b.map.set (i / 8)
              (byte &&& (1 <<< (i % 8) ^^^ 255)))[i / 8]?
            = some (byte &&& (1 <<< (i % 8) ^^^ 255)) := by
          simp [List.getElem?_set_self, hk]
        show Bitmap.unset _ i = _
        simp only [Bitmap.unset, hi, if_true, h2?, List.set_set]
        rw [Nat.and_assoc, Nat.and_self]
    · have h1 : b.unset i = .error .indexOutOfRange := by
        simp only [Bitmap.unset]; rw [if_neg hi]
      rw [h1]; rfl

/-- C9: `new` establishes the structural invariant
(`bitmap_capacity = ceil(bit_count / 8)`, storage length `= bitmap_capacity`,
bytes in range), and `set`/`unset` preserve it together with `bit_count`,
`bitmap_capacity` and the storage length.  `get`, `get_bit_count` and
`get_bitmap_capacity` are pure functions returning a `Bool`/`Nat` — they
take `b` immutably and cannot alter any field. -/
theorem structural_invariant (n i : Nat) (b b' : Bitmap) :
    (Bitmap.new n = .ok b → b.WF) ∧
    (b.set i = .ok b' →
      b'.bit_count = b.bit_count ∧ b'.bitmap_capacity = b.bitmap_capacity ∧
      b'.map.length = b.map.length ∧ (b.WF → b'.WF)) ∧
    (b.unset i = .ok b' →
      b'.bit_count = b.bit_count ∧ b'.bitmap_capacity = b.bitmap_capacity ∧
      b'.map.length = b.map.length ∧ (b.WF → b'.WF)) := by
  refine ⟨fun h => new_wf n b h, fun h => ?_, fun h => ?_⟩
  · obtain ⟨hi', hk, rfl⟩ := b.set_ok_elim _ i h
    refine ⟨rfl, rfl, by simp, fun hwf => ?_⟩
    exact b.wf_update _ _
      (or_lt_256 _ _ (b.byteAt_lt hwf _) (mask_lt_256 i)) hwf
  · obtain ⟨hi', hk, rfl⟩ := b.unset_ok_elim _ i h
    refine ⟨rfl, rfl, by simp, fun hwf => ?_⟩
    exact b.wf_update _ _
      (lt_of_le_of_lt Nat.and_le_left (b.byteAt_lt hwf _)) hwf

/-- Witness for C9: `new 64` is well-formed, and the state reached by
`set 10` keeps `bit_count`, `bitmap_capacity`, the storage length and
well-formedness. -/
theorem structural_invariant_witness :
    (Bitmap.mk 8 64 (List.replicate 8 0)).WF ∧
    ((Bitmap.mk 8 64 ((List.replicate 8 0).set 1 4)).bit_count =
        (Bitmap.mk 8 64 (List.replicate 8 0)).bit_count ∧
      (Bitmap.mk 8 64 ((List.replicate 8 0).set 1 4)).bitmap_capacity =
        (Bitmap.mk 8 64 (List.replicate 8 0)).bitmap_capacity ∧
      (Bitmap.mk 8 64 ((List.replicate 8 0).set 1 4)).map.length =
        (Bitmap.mk 8 64 (List.replicate 8 0)).map.length ∧
      ((Bitmap.mk 8 64 (List.replicate 8 0)).WF →
        (Bitmap.mk 8 64 ((List.replicate 8 0).set 1 4)).WF)) :=
  ⟨(structural_invariant 64 10 (Bitmap.mk 8 64 (List.replicate 8 0))
      (Bitmap.mk 8 64 ((List.replicate 8 0).set 1 4))).1 (by decide),
   (structural_invariant 64 10 (Bitmap.mk 8 64 (List.replicate 8 0))
      (Bitmap.mk 8 64 ((List.replicate 8 0).set 1 4))).2.1 (by decide)⟩

/-- C10: once the index assertion passes (`i < bit_count`) on a well-formed
bitmap, the storage index `i / 8` is below the byte capacity, the shift
amount `i % 8` is below 8, and `set`/`unset`/`get` all succeed — no
execution path other than the explicit precondition checks can fail. -/
theorem access_in_bounds (b : Bitmap) (i : Nat) (hwf : b.WF)
    (hi : i < b.bit_count) :
    i / 8 < b.bitmap_capacity ∧ i % 8 < 8 ∧
    (∃ b', b.set i = .ok b') ∧ (∃ b', b.unset i = .ok b') ∧
    (∃ v, b.get i = .ok v) := by
  refine ⟨?_, Nat.mod_lt _ (by norm_num), ⟨_, b.set_ok i hwf hi⟩,
    ⟨_, b.unset_ok i hwf hi⟩, ⟨_, b.get_ok i hwf hi⟩⟩
  rw [hwf.2.1]
  exact lt_divCeil_mul i b.bit_count hi

/-- Witness for C10: the last in-range index of a 64-bit bitmap. -/
theorem access_in_bounds_witness :
    (Bitmap.mk 8 64 (List.replicate 8 0)).WF ∧
      63 < (Bitmap.mk 8 64 (List.replicate 8 0)).bit_count ∧
      (63 / 8 < (Bitmap.mk 8 64 (List.replicate 8 0)).bitmap_capacity ∧
        63 % 8 < 8 ∧
        (∃ b', (Bitmap.mk 8 64 (List.replicate 8 0)).set 63 = .ok b') ∧
        (∃ b', (Bitmap.mk 8 64 (List.replicate 8 0)).unset 63 = .ok b') ∧
        (∃ v, (Bitmap.mk 8 64 (List.replicate 8 0)).get 63 = .ok v)) :=
  ⟨by decide, by decide,
    access_in_bounds (Bitmap.mk 8 64 (List.replicate 8 0)) 63 (by decide)
      (by decide)⟩

end RustBitmaps
